import Mathlib

/-!
Verification development for the rustypy_demo library (src/lib.rs).

The five specified primitives are shallowly embedded here:

* `RingBuffer`    — the fixed-capacity circular buffer (struct RingBuffer).
* `SortedSet`     — the sorted deduplicated index (struct SortedSet).
* `sieve_marks`, `prime_sieve`, `count_primes` — the Eratosthenes sieve.
* `matrix_multiply` — the dense row-major matrix product.
* `slugify`, `extract_emails` — the two text scanners.

Modelling conventions:

* Machine integers (`usize`) are modelled as `Nat`; none of the modelled index
  arithmetic can overflow in the source for representable inputs.
* `f64` sample values stored by `RingBuffer` are never inspected or combined
  arithmetically by `push`, `to_list`, `latest`; the buffer is therefore
  modelled generically over an arbitrary inhabited value type, with the
  `vec![0.0; capacity]` initial fill modelled by the default element.
* `f64` matrix entries are modelled as `ℚ` (exact field arithmetic); the
  claims proved about `matrix_multiply` concern dimension validation and the
  identity matrix, whose arithmetic content (`0 + 1 * x = x`, `0 * x = 0`)
  holds for every IEEE float that is not an infinity or NaN and holds exactly
  in `ℚ`.
* Rust `char` values are modelled by their `Nat` code points (a Rust `char`
  is exactly a Unicode scalar value); `is_ascii_alphanumeric` and
  `to_ascii_lowercase` are translated to explicit code-point arithmetic.
* A Rust panic (out-of-bounds slice index) is modelled by `Option.none`; a
  `PyResult` error (`PyValueError`) is modelled by `Except.error` with the
  message text.
* Rust `<[i64]>::binary_search` is a std function, not repository code; it is
  modelled by its documented contract (`Ok` at the index of the value when
  present, `Err` at the insertion point otherwise), which on the strictly
  sorted, duplicate-free vectors maintained by `SortedSet` determines its
  result uniquely: the position is the number of elements below the probe.
* The `while` loops of the sieve and the email scanner are translated to
  folds or structural recursions over the exact sequence of loop states; the
  sieve bound `(n as f64).sqrt() as usize` is modelled by `Nat.sqrt n`
  (the spec's `floor(sqrt(n))`), which agrees with the float computation for
  every allocatable `n`; a larger bound would only add iterations whose inner
  loop body never runs.
-/

namespace RustyPy

/-! ### RingBuffer (src/lib.rs, struct RingBuffer) -/

structure RingBuffer (α : Type) : Type where
  buffer : List α
  capacity : Nat
  head : Nat
  len : Nat

/-- Model of `RingBuffer::new` minus the zero-capacity check: the freshly
constructed state `{ buffer: vec![default; capacity], capacity, head: 0, len: 0 }`. -/
def RingBuffer.fresh (α : Type) [Inhabited α] (capacity : Nat) : RingBuffer α :=
  ⟨List.replicate capacity default, capacity, 0, 0⟩

/-- Model of `RingBuffer::new`: fails when `capacity == 0`. -/
def RingBuffer.new (α : Type) [Inhabited α] (capacity : Nat) : Option (RingBuffer α) :=
  if capacity = 0 then none else some (RingBuffer.fresh α capacity)

/-- Model of `RingBuffer::push`: write at `head`, advance `head` mod capacity,
saturate `len` at `capacity`. -/
def RingBuffer.push (rb : RingBuffer α) (value : α) : RingBuffer α :=
  { rb with
    buffer := rb.buffer.set rb.head value
    head := (rb.head + 1) % rb.capacity
    len := if rb.len < rb.capacity then rb.len + 1 else rb.len }

/-- Model of `RingBuffer::to_list`: the prefix of length `len` while not yet
full, otherwise the capacity-length window read starting at `head`. -/
def RingBuffer.to_list [Inhabited α] (rb : RingBuffer α) : List α :=
  if rb.len < rb.capacity then rb.buffer.take rb.len
  else (List.range rb.capacity).map fun i => rb.buffer.getD ((rb.head + i) % rb.capacity) default

/-- A finite sequence of pushes, oldest first. -/
def RingBuffer.pushAll (rb : RingBuffer α) (vs : List α) : RingBuffer α :=
  vs.foldl RingBuffer.push rb

/-! ### SortedSet (src/lib.rs, struct SortedSet) -/

structure SortedSet : Type where
  data : List Int

/-- Contract model of Rust `<[i64]>::binary_search` on the strictly sorted
`data` vector: `Ok pos` when the value is present (at index `pos`), otherwise
`Err pos` with `pos` the insertion point; in both cases `pos` counts the
elements strictly below `value`. -/
def binary_search (data : List Int) (value : Int) : Except Nat Nat :=
  let pos := data.countP fun x => decide (x < value)
  if value ∈ data then Except.ok pos else Except.error pos

/-- Model of `SortedSet::new`. -/
def SortedSet.new : SortedSet := ⟨[]⟩

/-- Model of `SortedSet::insert`: returns the `bool` result paired with the
updated set. -/
def SortedSet.insert (s : SortedSet) (value : Int) : Bool × SortedSet :=
  match binary_search s.data value with
  | Except.ok _ => (false, s)
  | Except.error pos => (true, ⟨s.data.insertIdx pos value⟩)

/-- Model of `SortedSet::contains`. -/
def SortedSet.contains (s : SortedSet) (value : Int) : Bool :=
  match binary_search s.data value with
  | Except.ok _ => true
  | Except.error _ => false

/-- Model of `SortedSet::remove`: returns the `bool` result paired with the
updated set. -/
def SortedSet.remove (s : SortedSet) (value : Int) : Bool × SortedSet :=
  match binary_search s.data value with
  | Except.ok pos => (true, ⟨s.data.eraseIdx pos⟩)
  | Except.error _ => (false, s)

/-- Model of `SortedSet::to_list`. -/
def SortedSet.to_list (s : SortedSet) : List Int := s.data

/-- Model of `SortedSet::range`: the two binary searches followed by the slice
`self.data[start..end]`.  A Rust range slice panics unless
`start <= end && end <= len`; the panic is modelled by `none`. -/
def SortedSet.range (s : SortedSet) (low high : Int) : Option (List Int) :=
  let start := match binary_search s.data low with
    | Except.ok pos => pos
    | Except.error pos => pos
  let stop := match binary_search s.data high with
    | Except.ok pos => pos + 1
    | Except.error pos => pos
  if start ≤ stop ∧ stop ≤ s.data.length then
    some ((s.data.drop start).take (stop - start))
  else none

/-- One host-visible mutation of a `SortedSet`. -/
inductive SetOp : Type where
  | ins (value : Int)
  | del (value : Int)

/-- Apply one mutation, keeping only the resulting state. -/
def SortedSet.applyOp (s : SortedSet) : SetOp → SortedSet
  | SetOp.ins v => (s.insert v).2
  | SetOp.del v => (s.remove v).2

/-- Apply a finite sequence of mutations, oldest first. -/
def SortedSet.applyOps (s : SortedSet) (ops : List SetOp) : SortedSet :=
  ops.foldl SortedSet.applyOp s

/-! ### Prime sieve (src/lib.rs, fn prime_sieve / fn count_primes)

The marking core below is textually identical in the two Rust functions; it is
factored into `sieve_marks`, used by both models. -/

/-- The loop bound `limit = (n as f64).sqrt() as usize`, i.e. the spec's
`floor(sqrt(n))`, written as a counting expression so that it evaluates by
kernel reduction; `floor_sqrt_eq` below identifies it with `Nat.sqrt`. -/
def floor_sqrt (n : Nat) : Nat :=
  (List.range (n + 1)).countP (fun i => decide (i * i ≤ n)) - 1

/-- The exact index sequence `i*i, i*i + i, ...` visited by the inner
`while j <= n` loop. -/
def multiples (i n : Nat) : List Nat :=
  if i * i ≤ n then List.range' (i * i) ((n - i * i) / i + 1) i else []

/-- Model of the inner loop: mark every visited index composite. -/
def mark_multiples (n i : Nat) (marks : List Bool) : List Bool :=
  (multiples i n).foldl (fun m j => m.set j false) marks

/-- Model of one iteration of the outer `for i in 2..=limit` loop. -/
def sieve_pass (n : Nat) (marks : List Bool) (i : Nat) : List Bool :=
  if marks.getD i false then mark_multiples n i marks else marks

/-- The boolean array `is_prime` after the full sieve, for `n >= 2`:
`vec![true; n+1]` with indices 0 and 1 cleared, then the outer loop over
`2..=limit` with `limit = floor(sqrt(n))`. -/
def sieve_marks (n : Nat) : List Bool :=
  (List.range' 2 (floor_sqrt n - 1)).foldl (sieve_pass n)
    (((List.replicate (n + 1) true).set 0 false).set 1 false)

/-- Model of `prime_sieve`: the indices still marked prime, ascending. -/
def prime_sieve (n : Nat) : List Nat :=
  if n < 2 then []
  else (sieve_marks n).enum.filterMap fun p => if p.2 then some p.1 else none

/-- Model of `count_primes`: the count of indices still marked prime. -/
def count_primes (n : Nat) : Nat :=
  if n < 2 then 0
  else (sieve_marks n).countP fun b => b

/-! ### Matrix multiplication (src/lib.rs, fn matrix_multiply) -/

def errMatrixA : String := "Matrix A size mismatch"

def errMatrixB : String := "Matrix B size mismatch"

/-- Model of `matrix_multiply`: the two dimension checks, then the i-k-j
triple loop accumulating into a zero-initialised row-major result. -/
def matrix_multiply (a b : List ℚ) (rows_a cols_a cols_b : Nat) :
    Except String (List ℚ) :=
  if a.length ≠ rows_a * cols_a then Except.error errMatrixA
  else if b.length ≠ cols_a * cols_b then Except.error errMatrixB
  else Except.ok <|
    (List.range rows_a).foldl
      (fun res i =>
        (List.range cols_a).foldl
          (fun res k =>
            let a_ik := a.getD (i * cols_a + k) 0
            (List.range cols_b).foldl
              (fun res j =>
                res.set (i * cols_b + j)
                  (res.getD (i * cols_b + j) 0 + a_ik * b.getD (k * cols_b + j) 0))
              res)
          res)
      (List.replicate (rows_a * cols_b) 0)

/-! ### Text tokenizer (src/lib.rs, fn slugify / fn extract_emails)

Characters are their Unicode code points; 45 is the dash, 46 the dot,
43 the plus, 64 the at sign, 95 the underscore. -/

/-- Model of `char::is_ascii_alphanumeric`. -/
def is_ascii_alphanumeric (c : Nat) : Bool :=
  decide ((48 ≤ c ∧ c ≤ 57) ∨ (65 ≤ c ∧ c ≤ 90) ∨ (97 ≤ c ∧ c ≤ 122))

/-- Model of `char::to_ascii_lowercase`. -/
def to_ascii_lowercase (c : Nat) : Nat :=
  if 65 ≤ c ∧ c ≤ 90 then c + 32 else c

/-- One iteration of the `slugify` character loop on the state
`(slug, last_was_dash)`. -/
def slug_step (acc : List Nat × Bool) (c : Nat) : List Nat × Bool :=
  if is_ascii_alphanumeric c then (acc.1 ++ [to_ascii_lowercase c], false)
  else if acc.2 = false then (acc.1 ++ [45], true)
  else acc

/-- Model of `slugify`: the character loop starting from
`last_was_dash = true`, then removal of one trailing dash. -/
def slugify (text : List Nat) : List Nat :=
  let r := text.foldl slug_step ([], true)
  if r.1.getLast? = some 45 then r.1.dropLast else r.1

/-- Characters accepted while scanning backwards for an email local part. -/
def is_local_char (c : Nat) : Bool :=
  is_ascii_alphanumeric c || c == 46 || c == 95 || c == 45 || c == 43

/-- Characters accepted while scanning forwards for an email domain part. -/
def is_domain_char (c : Nat) : Bool :=
  is_ascii_alphanumeric c || c == 46 || c == 45

/-- Model of the backward scan `while start > 0 { .. }`: from position `s`,
step left while the previous character is a local-part character. -/
def scan_back (text : List Nat) : Nat → Nat
  | 0 => 0
  | s + 1 => if is_local_char (text.getD s 0) then scan_back text s else s + 1

/-- Model of the forward scan `while end < len { .. }` on `(end, has_dot)`;
the first argument counts the characters remaining up to `len`, so the
recursion walks exactly the positions the `while` loop visits. -/
def scan_fwd (text : List Nat) : Nat → Nat → Bool → Nat × Bool
  | 0, e, has_dot => (e, has_dot)
  | r + 1, e, has_dot =>
    if is_domain_char (text.getD e 0) then
      scan_fwd text r (e + 1) (has_dot || text.getD e 0 == 46)
    else (e, has_dot)

/-- Model of `str::trim_end_matches` with a dot pattern. -/
def trim_trailing_dots (l : List Nat) : List Nat :=
  (l.reverse.dropWhile fun c => c == 46).reverse

/-- Model of `extract_emails`: for each `@` that is neither first nor last,
scan both directions, validate, trim trailing dots, and push unless already
seen. -/
def extract_emails (text : List Nat) : List (List Nat) :=
  (List.range text.length).foldl
    (fun emails i =>
      if text.getD i 0 == 64 && decide (0 < i) && decide (i < text.length - 1) then
        let start := scan_back text i
        let fd := scan_fwd text (text.length - (i + 1)) (i + 1) false
        if decide (start < i) && decide (i + 1 < fd.1) && fd.2 then
          let email := trim_trailing_dots ((text.drop start).take (fd.1 - start))
          if email ∈ emails then emails else emails ++ [email]
        else emails
      else emails)
    []

/-! ### Generic list lemmas -/

theorem getD_set_false (m : List Bool) (a k : Nat) :
    (m.set a false).getD k false = false ↔ (m.getD k false = false ∨ k = a) := by
  rcases Nat.lt_or_ge k m.length with hk | hk
  · rcases eq_or_ne k a with rfl | hne
    · simp [List.getD_eq_getElem?_getD, List.getElem?_set_self, hk]
    · simp [List.getD_eq_getElem?_getD, List.getElem?_set_ne (Ne.symm hne), hne]
  · constructor
    · intro _
      left
      simp [List.getD_eq_getElem?_getD, List.getElem?_eq_none hk]
    · intro _
      simp [List.getD_eq_getElem?_getD, List.getElem?_eq_none, hk, List.length_set]

theorem foldl_set_false_length (L : List Nat) (m : List Bool) :
    (L.foldl (fun acc j => acc.set j false) m).length = m.length := by
  induction L generalizing m with
  | nil => rfl
  | cons a L ih => rw [List.foldl_cons, ih, List.length_set]

theorem foldl_set_false_getD (L : List Nat) (m : List Bool) (k : Nat) :
    (L.foldl (fun acc j => acc.set j false) m).getD k false = false ↔
      (m.getD k false = false ∨ k ∈ L) := by
  induction L generalizing m with
  | nil => simp
  | cons a L ih =>
    rw [List.foldl_cons, ih, getD_set_false, List.mem_cons]
    tauto

/-! ### Sieve: the boolean array marks exactly the primes -/

theorem countP_sq_range (n : Nat) :
    ∀ m : Nat, m ≤ n + 1 →
      (List.range m).countP (fun i => decide (i * i ≤ n)) = min m (Nat.sqrt n + 1) := by
  intro m
  induction m with
  | zero => simp
  | succ m ih =>
    intro hm
    rw [List.range_succ, List.countP_append, ih (by omega)]
    have hsingle : List.countP (fun i => decide (i * i ≤ n)) [m] = if m * m ≤ n then 1 else 0 := by
      simp [List.countP_cons]
    rw [hsingle]
    by_cases h : m * m ≤ n
    · have hle : m ≤ Nat.sqrt n := Nat.le_sqrt.2 h
      rw [if_pos h]
      omega
    · have hgt : Nat.sqrt n < m := by
        by_contra hcon
        exact h (Nat.le_sqrt.1 (by omega))
      rw [if_neg h]
      omega

theorem floor_sqrt_eq (n : Nat) : floor_sqrt n = Nat.sqrt n := by
  unfold floor_sqrt
  rw [countP_sq_range n (n + 1) le_rfl]
  have := Nat.sqrt_le_self n
  omega

theorem mem_multiples {i n k : Nat} (hi : 0 < i) :
    k ∈ multiples i n ↔ (i * i ≤ k ∧ k ≤ n ∧ i ∣ k) := by
  unfold multiples
  split
  case isTrue h =>
    rw [List.mem_range']
    constructor
    · rintro ⟨t, ht, rfl⟩
      refine ⟨Nat.le_add_right _ _, ?_, ⟨i + t, by ring⟩⟩
      have h1 : i * t ≤ i * ((n - i * i) / i) := Nat.mul_le_mul_left i (by omega)
      have h2 : i * ((n - i * i) / i) ≤ n - i * i := Nat.mul_div_le _ _
      omega
    · rintro ⟨h1, h2, t, rfl⟩
      have hit : i ≤ t := Nat.le_of_mul_le_mul_left h1 hi
      have hsplit : i * t = i * i + i * (t - i) := by
        rw [← Nat.mul_add]
        congr 1
        omega
      refine ⟨t - i, ?_, hsplit⟩
      have hdiv : (i * (t - i)) / i ≤ (n - i * i) / i :=
        Nat.div_le_div_right (by omega)
      rw [Nat.mul_div_cancel_left _ hi] at hdiv
      omega
  case isFalse h =>
    simp only [List.not_mem_nil, false_iff]
    rintro ⟨h1, h2, -⟩
    exact h (le_trans h1 h2)

theorem mark_multiples_length (n i : Nat) (m : List Bool) :
    (mark_multiples n i m).length = m.length :=
  foldl_set_false_length _ _

theorem mark_multiples_getD {i : Nat} (hi : 0 < i) (n : Nat) (m : List Bool) (k : Nat) :
    (mark_multiples n i m).getD k false = false ↔
      (m.getD k false = false ∨ (i * i ≤ k ∧ k ≤ n ∧ i ∣ k)) := by
  unfold mark_multiples
  rw [foldl_set_false_getD, mem_multiples hi]

theorem sieve_pass_length (n : Nat) (m : List Bool) (i : Nat) :
    (sieve_pass n m i).length = m.length := by
  unfold sieve_pass
  split
  · exact mark_multiples_length n i m
  · rfl

theorem foldl_pass_length (n : Nat) (L : List Nat) (m : List Bool) :
    (L.foldl (sieve_pass n) m).length = m.length := by
  induction L generalizing m with
  | nil => rfl
  | cons a L ih => rw [List.foldl_cons, ih, sieve_pass_length]

theorem sieve_pass_mono (n : Nat) (m : List Bool) (i k : Nat)
    (h : m.getD k false = false) : (sieve_pass n m i).getD k false = false := by
  unfold sieve_pass mark_multiples
  split
  · rw [foldl_set_false_getD]
    exact Or.inl h
  · exact h

theorem foldl_pass_mono (n : Nat) (L : List Nat) (m : List Bool) (k : Nat)
    (h : m.getD k false = false) : (L.foldl (sieve_pass n) m).getD k false = false := by
  induction L generalizing m with
  | nil => exact h
  | cons a L ih => exact ih _ (sieve_pass_mono n m a k h)

theorem sieve_pass_sound (n i : Nat) (hi : 2 ≤ i) (m : List Bool)
    (hm : ∀ k, k ≤ n → m.getD k false = false → ¬ Nat.Prime k) :
    ∀ k, k ≤ n → (sieve_pass n m i).getD k false = false → ¬ Nat.Prime k := by
  intro k hk hfalse
  unfold sieve_pass at hfalse
  split at hfalse
  · rw [mark_multiples_getD (by omega)] at hfalse
    rcases hfalse with h | ⟨h1, h2, t, rfl⟩
    · exact hm k hk h
    · intro hp
      rcases hp.eq_one_or_self_of_dvd i ⟨t, rfl⟩ with h3 | h3
      · omega
      · have ht : i ≤ t := Nat.le_of_mul_le_mul_left h1 (by omega)
        have : i * 2 ≤ i * t := Nat.mul_le_mul_left i (by omega)
        omega
  · exact hm k hk hfalse

theorem foldl_pass_sound (n : Nat) (L : List Nat) (hL : ∀ i ∈ L, 2 ≤ i) (m : List Bool)
    (hm : ∀ k, k ≤ n → m.getD k false = false → ¬ Nat.Prime k) :
    ∀ k, k ≤ n → (L.foldl (sieve_pass n) m).getD k false = false → ¬ Nat.Prime k := by
  induction L generalizing m with
  | nil => exact hm
  | cons a L ih =>
    exact ih (fun i hi => hL i (List.mem_cons_of_mem a hi)) _
      (sieve_pass_sound n a (hL a (List.mem_cons_self a L)) m hm)

theorem sieve_init_length (n : Nat) :
    ((((List.replicate (n + 1) true).set 0 false).set 1 false)).length = n + 1 := by
  simp

theorem sieve_init_sound (n : Nat) :
    ∀ k, k ≤ n →
      ((((List.replicate (n + 1) true).set 0 false).set 1 false)).getD k false = false →
        ¬ Nat.Prime k := by
  intro k hk h
  rw [getD_set_false, getD_set_false] at h
  rcases h with (h | rfl) | rfl
  · exfalso
    have hlt : k < n + 1 := by omega
    have hsome : (List.replicate (n + 1) true)[k]? = some true := by
      rw [List.getElem?_eq_getElem (by simpa using hlt)]
      simp
    rw [List.getD_eq_getElem?_getD, hsome] at h
    simp at h
  · exact Nat.not_prime_zero
  · exact Nat.not_prime_one

theorem sieve_marks_length (n : Nat) : (sieve_marks n).length = n + 1 := by
  unfold sieve_marks
  rw [foldl_pass_length, sieve_init_length]

theorem mem_sieve_range {n i : Nat} (h : i ∈ List.range' 2 (Nat.sqrt n - 1)) : 2 ≤ i := by
  rw [List.mem_range'] at h
  rcases h with ⟨t, ht, rfl⟩
  omega

theorem sieve_marks_sound (n : Nat) :
    ∀ k, k ≤ n → (sieve_marks n).getD k false = false → ¬ Nat.Prime k := by
  unfold sieve_marks
  rw [floor_sqrt_eq]
  exact foldl_pass_sound n _ (fun i hi => mem_sieve_range hi) _ (sieve_init_sound n)

theorem sieve_marks_composite (n k : Nat) (hk2 : 2 ≤ k) (hk : k ≤ n)
    (hnp : ¬ Nat.Prime k) : (sieve_marks n).getD k false = false := by
  have hp : Nat.Prime k.minFac := Nat.minFac_prime (by omega)
  have hdvd : k.minFac ∣ k := Nat.minFac_dvd k
  have hsq : k.minFac * k.minFac ≤ k := by
    have := @Nat.minFac_sq_le_self k (by omega) hnp
    rwa [pow_two] at this
  have hple : k.minFac ≤ Nat.sqrt n := Nat.le_sqrt.2 (le_trans hsq hk)
  have hp2 : 2 ≤ k.minFac := hp.two_le
  have hmem : k.minFac ∈ List.range' 2 (Nat.sqrt n - 1) := by
    rw [List.mem_range']
    exact ⟨k.minFac - 2, by omega, by omega⟩
  obtain ⟨L1, L2, hsplit⟩ := List.append_of_mem hmem
  unfold sieve_marks
  rw [floor_sqrt_eq, hsplit, List.foldl_append, List.foldl_cons]
  set m1 := L1.foldl (sieve_pass n)
    (((List.replicate (n + 1) true).set 0 false).set 1 false) with hm1
  have hm1sound : ∀ j, j ≤ n → m1.getD j false = false → ¬ Nat.Prime j :=
    foldl_pass_sound n L1
      (fun i hi => mem_sieve_range (n := n) (hsplit ▸ List.mem_append_left _ hi))
      _ (sieve_init_sound n)
  have hm1len : m1.length = n + 1 := by
    rw [hm1, foldl_pass_length, sieve_init_length]
  have hguard : m1.getD k.minFac false = true := by
    cases hval : m1.getD k.minFac false with
    | false =>
      exact absurd hp (hm1sound k.minFac (le_trans hple (Nat.sqrt_le_self n)) hval)
    | true => rfl
  have hpassed : (sieve_pass n m1 k.minFac).getD k false = false := by
    unfold sieve_pass
    rw [hguard, if_pos rfl, mark_multiples_getD (by omega)]
    exact Or.inr ⟨hsq, hk, hdvd⟩
  exact foldl_pass_mono n L2 _ k hpassed

theorem sieve_marks_getD (n k : Nat) (hk : k ≤ n) :
    (sieve_marks n).getD k false = true ↔ Nat.Prime k := by
  constructor
  · intro htrue
    by_contra hnp
    rcases Nat.lt_or_ge k 2 with hk2 | hk2
    · have hfalse : (sieve_marks n).getD k false = false := by
        unfold sieve_marks
        apply foldl_pass_mono
        rcases (by omega : k = 0 ∨ k = 1) with rfl | rfl
        · exact (getD_set_false _ _ _).2 (Or.inl ((getD_set_false _ _ _).2 (Or.inr rfl)))
        · exact (getD_set_false _ _ _).2 (Or.inr rfl)
      rw [htrue] at hfalse
      cases hfalse
    · have hfalse := sieve_marks_composite n k hk2 hk hnp
      rw [htrue] at hfalse
      cases hfalse
  · intro hp
    cases hval : (sieve_marks n).getD k false with
    | false => exact absurd hp (sieve_marks_sound n k hk hval)
    | true => rfl

theorem enumFrom_filterMap_length (l : List Bool) :
    ∀ s : Nat,
      ((l.enumFrom s).filterMap fun p => if p.2 then some p.1 else none).length =
        l.countP (fun b => b) := by
  induction l with
  | nil => intro s; rfl
  | cons a t ih =>
    intro s
    cases a with
    | false => simpa [List.enumFrom, List.filterMap_cons, List.countP_cons] using ih (s + 1)
    | true => simpa [List.enumFrom, List.filterMap_cons, List.countP_cons] using ih (s + 1)

/-- C3: for every n, the length of the list returned by the sieve equals the
value returned by the count-only entry point. -/
theorem prime_sieve_length_eq_count_primes (n : Nat) :
    (prime_sieve n).length = count_primes n := by
  unfold prime_sieve count_primes
  split
  · rfl
  · exact enumFrom_filterMap_length (sieve_marks n) 0

theorem enumFrom_filterMap_eq (l : List Bool) :
    ∀ s : Nat,
      (l.enumFrom s).filterMap (fun p => if p.2 then some p.1 else none) =
        ((List.range l.length).filter fun i => l.getD i false).map (· + s) := by
  induction l with
  | nil => intro s; rfl
  | cons a t ih =>
    intro s
    have htail : ((List.range t.length).map Nat.succ).filter (fun i => (a :: t).getD i false)
        = ((List.range t.length).filter fun i => t.getD i false).map Nat.succ := by
      rw [List.filter_map]
      have hfuns : (fun i => (a :: t).getD i false) ∘ Nat.succ = fun i => t.getD i false := by
        funext x
        simp [Function.comp, List.getD_cons_succ]
      rw [hfuns]
    have hmaps : ∀ X : List Nat, (X.map Nat.succ).map (· + s) = X.map (· + (s + 1)) := by
      intro X
      rw [List.map_map]
      apply List.map_congr_left
      intro x hx
      simp [Function.comp]
      omega
    cases a with
    | false =>
      rw [show ((false :: t).enumFrom s) = (s, false) :: t.enumFrom (s + 1) from rfl,
        List.filterMap_cons, show (false :: t).length = t.length + 1 from rfl,
        List.range_succ_eq_map, List.filter_cons]
      simp only [List.getD_cons_zero, if_false, Bool.false_eq_true]
      rw [htail, hmaps, ih (s + 1)]
    | true =>
      rw [show ((true :: t).enumFrom s) = (s, true) :: t.enumFrom (s + 1) from rfl,
        List.filterMap_cons, show (true :: t).length = t.length + 1 from rfl,
        List.range_succ_eq_map, List.filter_cons]
      simp only [List.getD_cons_zero, if_true]
      rw [htail, List.map_cons, hmaps, ih (s + 1), Nat.zero_add]

theorem prime_sieve_eq_filter (n : Nat) :
    prime_sieve n = (List.range (n + 1)).filter fun i => decide (Nat.Prime i) := by
  unfold prime_sieve
  split
  case isTrue h =>
    symm
    rw [List.filter_eq_nil_iff]
    intro i hi
    rw [List.mem_range] at hi
    rcases (by omega : i = 0 ∨ i = 1) with rfl | rfl
    · simpa using Nat.not_prime_zero
    · simpa using Nat.not_prime_one
  case isFalse h =>
    rw [show (sieve_marks n).enum = (sieve_marks n).enumFrom 0 from rfl,
      enumFrom_filterMap_eq, sieve_marks_length]
    have hid : ∀ X : List Nat, X.map (· + 0) = X := by
      intro X
      simp
    rw [hid]
    apply List.filter_congr
    intro i hi
    rw [List.mem_range] at hi
    have hiff := sieve_marks_getD n i (by omega)
    by_cases hp : Nat.Prime i
    · rw [hiff.2 hp]
      exact (decide_eq_true hp).symm
    · rw [decide_eq_false hp]
      exact Bool.eq_false_iff.2 fun ht => hp (hiff.1 ht)

/-- C4: the sieve returns exactly the primes up to n in ascending order; in
particular sieve(10) = [2,3,5,7], and below 2 the result is empty. -/
theorem prime_sieve_primes (n : Nat) :
    (prime_sieve n).Sorted (· < ·) ∧
      (∀ m, m ∈ prime_sieve n ↔ (Nat.Prime m ∧ m ≤ n)) ∧
      prime_sieve 10 = [2, 3, 5, 7] ∧ prime_sieve 0 = [] ∧ prime_sieve 1 = [] := by
  refine ⟨?_, ?_, ?_, rfl, rfl⟩
  · rw [prime_sieve_eq_filter]
    exact List.Sorted.filter _ (List.sorted_lt_range (n + 1))
  · intro m
    rw [prime_sieve_eq_filter, List.mem_filter, List.mem_range]
    simp [Nat.lt_succ_iff, and_comm]
  · decide

/-! ### SortedSet: ordering invariant, insert/remove contract, range panic -/

theorem insert_eq (s : SortedSet) (v : Int) :
    s.insert v =
      if v ∈ s.data then (false, s)
      else (true, ⟨s.data.insertIdx (s.data.countP fun x => decide (x < v)) v⟩) := by
  unfold SortedSet.insert binary_search
  by_cases hv : v ∈ s.data <;> simp [hv]

theorem remove_eq (s : SortedSet) (v : Int) :
    s.remove v =
      if v ∈ s.data then (true, ⟨s.data.eraseIdx (s.data.countP fun x => decide (x < v))⟩)
      else (false, s) := by
  unfold SortedSet.remove binary_search
  by_cases hv : v ∈ s.data <;> simp [hv]

theorem sorted_countP_head (a : Int) (t : List Int) (v : Int) (hs : (a :: t).Sorted (· < ·))
    (ha : ¬ a < v) : (a :: t).countP (fun y => decide (y < v)) = 0 := by
  rw [List.countP_eq_zero]
  intro b hb
  rcases List.mem_cons.1 hb with rfl | hb
  · simpa using ha
  · have hab : a < b := List.rel_of_sorted_cons hs b hb
    simp only [decide_eq_true_eq]
    omega

theorem sorted_take_lt (data : List Int) (v : Int) (hs : data.Sorted (· < ·)) :
    ∀ x ∈ data.take (data.countP fun y => decide (y < v)), x < v := by
  induction data with
  | nil => simp
  | cons a t ih =>
    by_cases ha : a < v
    · have hc : (a :: t).countP (fun y => decide (y < v)) =
          t.countP (fun y => decide (y < v)) + 1 := by
        simp [List.countP_cons, ha]
      rw [hc, List.take_succ_cons]
      intro x hx
      rcases List.mem_cons.1 hx with rfl | hx
      · exact ha
      · exact ih hs.of_cons x hx
    · rw [show (a :: t).countP (fun y => decide (y < v)) = 0 from
        sorted_countP_head a t v hs ha]
      simp

theorem sorted_drop_ge (data : List Int) (v : Int) (hs : data.Sorted (· < ·)) :
    ∀ x ∈ data.drop (data.countP fun y => decide (y < v)), v ≤ x := by
  induction data with
  | nil => simp
  | cons a t ih =>
    by_cases ha : a < v
    · have hc : (a :: t).countP (fun y => decide (y < v)) =
          t.countP (fun y => decide (y < v)) + 1 := by
        simp [List.countP_cons, ha]
      rw [hc, List.drop_succ_cons]
      exact ih hs.of_cons
    · rw [show (a :: t).countP (fun y => decide (y < v)) = 0 from
        sorted_countP_head a t v hs ha]
      rw [List.drop_zero]
      intro x hx
      rcases List.mem_cons.1 hx with rfl | hx
      · omega
      · have : a < x := List.rel_of_sorted_cons hs x hx
        omega

theorem insertIdx_eq_take_cons_drop (data : List Int) (pos : Nat) (v : Int)
    (h : pos ≤ data.length) :
    data.insertIdx pos v = data.take pos ++ v :: data.drop pos := by
  induction data generalizing pos with
  | nil =>
    have : pos = 0 := by simpa using h
    subst this
    rfl
  | cons a t ih =>
    cases pos with
    | zero => rfl
    | succ p =>
      rw [List.insertIdx_succ_cons, List.take_succ_cons, List.drop_succ_cons,
        ih p (by simpa using h), List.cons_append]

theorem eraseIdx_append_length (A B : List Int) :
    (A ++ B).eraseIdx A.length = A ++ B.tail := by
  induction A with
  | nil => cases B <;> rfl
  | cons a A ih => simpa using ih

theorem sorted_drop_eq_cons (data : List Int) (v : Int) (hs : data.Sorted (· < ·))
    (hv : v ∈ data) :
    ∃ rest, data.drop (data.countP fun y => decide (y < v)) = v :: rest := by
  set pos := data.countP fun y => decide (y < v) with hpos
  have hvd : v ∈ data.drop pos := by
    have hsplit := List.take_append_drop pos data
    rcases List.mem_append.1 (by rw [hsplit]; exact hv) with h | h
    · exact absurd (sorted_take_lt data v hs v h) (lt_irrefl v)
    · exact h
  have hge := sorted_drop_ge data v hs
  have hds : (data.drop pos).Sorted (· < ·) :=
    List.Pairwise.sublist (List.drop_sublist pos data) hs
  cases hd : data.drop pos with
  | nil => rw [hd] at hvd; cases hvd
  | cons w rest =>
    rw [hd] at hds hvd hge
    rcases List.mem_cons.1 hvd with rfl | hvrest
    · exact ⟨rest, rfl⟩
    · exfalso
      have h1 : w < v := List.rel_of_sorted_cons hds v hvrest
      have h2 : v ≤ w := hge w (List.mem_cons_self w rest)
      omega

theorem insert_snd_sorted (s : SortedSet) (v : Int) (hs : s.data.Sorted (· < ·)) :
    (s.insert v).2.data.Sorted (· < ·) := by
  rw [insert_eq]
  by_cases hv : v ∈ s.data
  · rw [if_pos hv]
    exact hs
  · rw [if_neg hv]
    show (s.data.insertIdx (s.data.countP fun x => decide (x < v)) v).Sorted (· < ·)
    rw [insertIdx_eq_take_cons_drop _ _ _ (List.countP_le_length _)]
    rw [show List.Sorted (· < ·) = List.Pairwise (fun x y : Int => x < y) from rfl,
      List.pairwise_append]
    refine ⟨List.Pairwise.sublist (List.take_sublist _ _) hs, ?_, ?_⟩
    · rw [List.pairwise_cons]
      refine ⟨?_, List.Pairwise.sublist (List.drop_sublist _ _) hs⟩
      intro x hx
      have h1 : v ≤ x := sorted_drop_ge s.data v hs x hx
      have h2 : x ∈ s.data := List.mem_of_mem_drop hx
      have h3 : v ≠ x := fun he => hv (he ▸ h2)
      omega
    · intro x hx y hy
      have h1 : x < v := sorted_take_lt s.data v hs x hx
      rcases List.mem_cons.1 hy with rfl | hy
      · exact h1
      · have h2 : v ≤ y := sorted_drop_ge s.data v hs y hy
        omega

theorem remove_parts (s : SortedSet) (v : Int) (hs : s.data.Sorted (· < ·)) (hv : v ∈ s.data) :
    ∃ rest,
      (s.remove v).2.data = s.data.take (s.data.countP fun y => decide (y < v)) ++ rest ∧
        s.data.drop (s.data.countP fun y => decide (y < v)) = v :: rest := by
  obtain ⟨rest, hrest⟩ := sorted_drop_eq_cons s.data v hs hv
  refine ⟨rest, ?_, hrest⟩
  rw [remove_eq, if_pos hv]
  show s.data.eraseIdx (s.data.countP fun y => decide (y < v)) = _
  set pos := s.data.countP fun y => decide (y < v) with hpos
  have hple : pos ≤ s.data.length := List.countP_le_length _
  have hlen : (s.data.take pos).length = pos := by
    rw [List.length_take]
    omega
  calc s.data.eraseIdx pos
      = (s.data.take pos ++ s.data.drop pos).eraseIdx pos := by rw [List.take_append_drop]
    _ = (s.data.take pos ++ (v :: rest)).eraseIdx (s.data.take pos).length := by
        rw [hrest, hlen]
    _ = s.data.take pos ++ rest := by rw [eraseIdx_append_length]; rfl

theorem remove_snd_sorted (s : SortedSet) (v : Int) (hs : s.data.Sorted (· < ·)) :
    (s.remove v).2.data.Sorted (· < ·) := by
  by_cases hv : v ∈ s.data
  · obtain ⟨rest, heq, hrest⟩ := remove_parts s v hs hv
    rw [heq]
    have hds : (v :: rest).Sorted (· < ·) := by
      rw [← hrest]
      exact List.Pairwise.sublist (List.drop_sublist _ _) hs
    rw [show List.Sorted (· < ·) = List.Pairwise (fun x y : Int => x < y) from rfl,
      List.pairwise_append]
    refine ⟨List.Pairwise.sublist (List.take_sublist _ _) hs, hds.of_cons, ?_⟩
    intro x hx y hy
    have h1 : x < v := sorted_take_lt s.data v hs x hx
    have h2 : v < y := List.rel_of_sorted_cons hds y hy
    omega
  · rw [remove_eq, if_neg hv]
    exact hs

theorem remove_not_mem (s : SortedSet) (v : Int) (hs : s.data.Sorted (· < ·)) :
    v ∉ (s.remove v).2.data := by
  by_cases hv : v ∈ s.data
  · obtain ⟨rest, heq, hrest⟩ := remove_parts s v hs hv
    rw [heq]
    intro hmem
    have hds : (v :: rest).Sorted (· < ·) := by
      rw [← hrest]
      exact List.Pairwise.sublist (List.drop_sublist _ _) hs
    rcases List.mem_append.1 hmem with h | h
    · exact absurd (sorted_take_lt s.data v hs v h) (lt_irrefl v)
    · exact absurd (List.rel_of_sorted_cons hds v h) (lt_irrefl v)
  · rw [remove_eq, if_neg hv]
    exact hv

theorem applyOp_sorted (s : SortedSet) (op : SetOp) (hs : s.data.Sorted (· < ·)) :
    (s.applyOp op).data.Sorted (· < ·) := by
  cases op with
  | ins v => exact insert_snd_sorted s v hs
  | del v => exact remove_snd_sorted s v hs

theorem applyOps_sorted (ops : List SetOp) :
    ∀ s : SortedSet, s.data.Sorted (· < ·) → (s.applyOps ops).data.Sorted (· < ·) := by
  induction ops with
  | nil => exact fun s hs => hs
  | cons op ops ih => exact fun s hs => ih _ (applyOp_sorted s op hs)

/-- C7: after any finite sequence of insert and remove operations starting
from the empty index, toList is strictly ascending with no duplicates. -/
theorem sorted_set_invariant (ops : List SetOp) :
    (SortedSet.new.applyOps ops).to_list.Sorted (· < ·) ∧
      (SortedSet.new.applyOps ops).to_list.Nodup := by
  have hs : (SortedSet.new.applyOps ops).data.Sorted (· < ·) :=
    applyOps_sorted ops SortedSet.new List.sorted_nil
  exact ⟨hs, hs.nodup⟩

/-- C8: on a sorted state, insert(v) returns true iff v was absent before the
call and v is present afterwards; remove(v) returns true iff v was present
before the call and v is absent afterwards. -/
theorem insert_remove_contract (s : SortedSet) (v : Int) (hs : s.data.Sorted (· < ·)) :
    ((s.insert v).1 = true ↔ v ∉ s.data) ∧ v ∈ (s.insert v).2.data ∧
      ((s.remove v).1 = true ↔ v ∈ s.data) ∧ v ∉ (s.remove v).2.data := by
  refine ⟨?_, ?_, ?_, remove_not_mem s v hs⟩
  · rw [insert_eq]
    by_cases hv : v ∈ s.data <;> simp [hv]
  · rw [insert_eq]
    by_cases hv : v ∈ s.data
    · rw [if_pos hv]
      exact hv
    · rw [if_neg hv]
      exact (List.mem_insertIdx (List.countP_le_length _)).2 (Or.inl rfl)
  · rw [remove_eq]
    by_cases hv : v ∈ s.data <;> simp [hv]

/-- Witness for C8 at the concrete sorted state (data = [1, 3]) and value 2. -/
theorem insert_remove_contract_witness :
    (SortedSet.mk [1, 3]).data.Sorted (· < ·) ∧
      ((((SortedSet.mk [1, 3]).insert 2).1 = true ↔ (2:Int) ∉ (SortedSet.mk [1, 3]).data) ∧
        (2:Int) ∈ ((SortedSet.mk [1, 3]).insert 2).2.data ∧
        (((SortedSet.mk [1, 3]).remove 2).1 = true ↔ (2:Int) ∈ (SortedSet.mk [1, 3]).data) ∧
        (2:Int) ∉ ((SortedSet.mk [1, 3]).remove 2).2.data) :=
  ⟨by decide, insert_remove_contract (SortedSet.mk [1, 3]) 2 (by decide)⟩

/-- C1 fails on the code: on the reachable state with data = [5] (obtained by
inserting 5 into a fresh index), range(10, 0) has low > high but evaluates the
slice data[1..0], whose bounds check fails — the Rust code panics (modelled by
none) instead of returning the empty sequence. -/
theorem range_inverted_bounds_panics :
    (SortedSet.new.applyOps [SetOp.ins 5]).data = [5] ∧ (10 : Int) > 0 ∧
      (SortedSet.mk [5]).range 10 0 = none := by decide

/-! ### RingBuffer: the window property -/

theorem getD_set_of_ne {α : Type} (l : List α) (i k : Nat) (v d : α) (h : i ≠ k) :
    (l.set i v).getD k d = l.getD k d := by
  simp [List.getD_eq_getElem?_getD, List.getElem?_set_ne h]

theorem getD_set_at {α : Type} (l : List α) (k : Nat) (v d : α) (h : k < l.length) :
    (l.set k v).getD k d = v := by
  simp [List.getD_eq_getElem?_getD, List.getElem?_set_self h]

theorem map_range_getD {α : Type} (l : List α) (d : α) :
    (List.range l.length).map (fun i => l.getD i d) = l := by
  apply List.ext_getElem
  · simp
  · intro i h1 h2
    simp [List.getD_eq_getElem?_getD, List.getElem?_eq_getElem h2]

theorem add_mod_ne_self {h j c : Nat} (hh : h < c) (hj1 : 0 < j) (hjc : j < c) :
    (h + j) % c ≠ h := by
  intro he
  have h2 : (h + j) % c = h % c := by rw [he, Nat.mod_eq_of_lt hh]
  have h3 : c ∣ (h + j) - h := (Nat.modEq_iff_dvd' (Nat.le_add_right h j)).1 h2.symm
  simp only [Nat.add_sub_cancel_left] at h3
  exact absurd (Nat.le_of_dvd hj1 h3) (by omega)

theorem push_to_list_notfull {α : Type} [Inhabited α] (st : RingBuffer α) (v : α)
    (hlen : st.buffer.length = st.capacity) (hnf : st.len < st.capacity)
    (hhead : st.head = st.len) :
    (st.push v).to_list = st.to_list ++ [v] := by
  have hto : st.to_list = st.buffer.take st.len := by
    unfold RingBuffer.to_list
    rw [if_pos hnf]
  have hplen : (st.push v).len = st.len + 1 := by
    show (if st.len < st.capacity then st.len + 1 else st.len) = st.len + 1
    rw [if_pos hnf]
  have hpcap : (st.push v).capacity = st.capacity := rfl
  have hpbuf : (st.push v).buffer = st.buffer.set st.len v := by
    show st.buffer.set st.head v = st.buffer.set st.len v
    rw [hhead]
  have hslen : (st.buffer.set st.len v).length = st.capacity := by
    rw [List.length_set, hlen]
  have htake : (st.buffer.set st.len v).take st.len = st.buffer.take st.len := by
    apply List.ext_getElem
    · simp
    · intro i h1 h2
      have hik : i < st.len := by
        simp only [List.length_take] at h1
        omega
      simp only [List.getElem_take]
      exact List.getElem_set_ne (Nat.ne_of_gt hik) _
  rcases Nat.lt_or_ge (st.len + 1) st.capacity with hk1 | hk1
  · have hcond : (st.push v).len < (st.push v).capacity := by
      rw [hplen, hpcap]
      exact hk1
    have hpto : (st.push v).to_list = (st.push v).buffer.take (st.push v).len := by
      unfold RingBuffer.to_list
      rw [if_pos hcond]
    rw [hpto, hplen, hpbuf, hto, List.take_succ, htake]
    have hat : (st.buffer.set st.len v)[st.len]? = some v := by
      rw [List.getElem?_eq_getElem (by rw [hslen]; omega)]
      simp
    rw [hat]
    rfl
  · have hc1 : st.len + 1 = st.capacity := by omega
    have hcond : ¬ ((st.push v).len < (st.push v).capacity) := by
      rw [hplen, hpcap]
      omega
    have hphead0 : (st.push v).head = 0 := by
      show (st.head + 1) % st.capacity = 0
      rw [hhead, hc1, Nat.mod_self]
    have hpto : (st.push v).to_list = (List.range st.capacity).map
        fun i => (st.buffer.set st.len v).getD ((0 + i) % st.capacity) default := by
      unfold RingBuffer.to_list
      rw [if_neg hcond]
      rw [show (st.push v).capacity = st.capacity from rfl, hphead0, hpbuf]
    rw [hpto, hto]
    have hcongr : ∀ i ∈ List.range st.capacity,
        (st.buffer.set st.len v).getD ((0 + i) % st.capacity) default =
          (st.buffer.set st.len v).getD i default := by
      intro i hi
      rw [List.mem_range] at hi
      rw [Nat.zero_add, Nat.mod_eq_of_lt hi]
    rw [List.map_congr_left hcongr, ← hslen, map_range_getD]
    apply List.ext_getElem
    · rw [hslen, List.length_append, List.length_take]
      simp
      omega
    · intro i h1 h2
      have hic : i < st.len + 1 := by
        rw [hslen] at h1
        omega
      rcases Nat.lt_or_ge i st.len with hik | hik
      · rw [List.getElem_set_ne (Nat.ne_of_gt hik) _,
          List.getElem_append_left (by rw [List.length_take]; omega)]
        simp only [List.getElem_take]
      · have hieq : i = st.len := by omega
        subst hieq
        rw [List.getElem_set_self, List.getElem_append_right (by rw [List.length_take]; omega)]
        have hz : st.len - (st.buffer.take st.len).length = 0 := by
          rw [List.length_take]
          omega
        simp [hz]

theorem push_to_list_full {α : Type} [Inhabited α] (st : RingBuffer α) (v : α)
    (hc : 0 < st.capacity) (hlen : st.buffer.length = st.capacity)
    (hfull : st.len = st.capacity) (hhead : st.head < st.capacity) :
    (st.push v).to_list = st.to_list.drop 1 ++ [v] := by
  have hnl : ¬ (st.len < st.capacity) := by omega
  have hto : st.to_list = (List.range st.capacity).map
      (fun i => st.buffer.getD ((st.head + i) % st.capacity) default) := by
    unfold RingBuffer.to_list
    rw [if_neg hnl]
  have htolen : st.to_list.length = st.capacity := by
    rw [hto]
    simp
  have hplen : (st.push v).len = st.len := by
    show (if st.len < st.capacity then st.len + 1 else st.len) = st.len
    rw [if_neg hnl]
  have hcond : ¬ ((st.push v).len < (st.push v).capacity) := by
    rw [hplen]
    exact hnl
  have hslen : (st.buffer.set st.head v).length = st.capacity := by
    rw [List.length_set, hlen]
  have hpto : (st.push v).to_list = (List.range st.capacity).map
      fun i => (st.buffer.set st.head v).getD
        (((st.head + 1) % st.capacity + i) % st.capacity) default := by
    unfold RingBuffer.to_list
    rw [if_neg hcond]
    rfl
  have htoelem : ∀ j, j < st.capacity →
      st.to_list[j]? = some (st.buffer.getD ((st.head + j) % st.capacity) default) := by
    intro j hj
    rw [hto]
    simp [hj]
  rw [hpto]
  apply List.ext_getElem
  · rw [List.length_map, List.length_range, List.length_append, List.length_drop, htolen]
    simp
    omega
  · intro i h1 h2
    have hic : i < st.capacity := by
      rw [List.length_map, List.length_range] at h1
      exact h1
    rw [List.getElem_map, List.getElem_range, Nat.mod_add_mod]
    rcases Nat.lt_or_ge i (st.capacity - 1) with hi1 | hi1
    · have hgoal : (st.buffer.set st.head v).getD ((st.head + 1 + i) % st.capacity) default =
          st.buffer.getD ((st.head + (1 + i)) % st.capacity) default := by
        rw [Nat.add_assoc]
        exact getD_set_of_ne _ _ _ _ _
          (Ne.symm (add_mod_ne_self hhead (by omega) (by omega)))
      rw [hgoal, List.getElem_append_left (by rw [List.length_drop, htolen]; omega),
        List.getElem_drop]
      have hsome := htoelem (1 + i) (by omega)
      rw [List.getElem?_eq_getElem (by rw [htolen]; omega)] at hsome
      exact (Option.some.inj hsome).symm
    · have hieq : i = st.capacity - 1 := by omega
      subst hieq
      have hidx : st.head + 1 + (st.capacity - 1) = st.head + st.capacity := by omega
      rw [hidx, Nat.add_mod_right, Nat.mod_eq_of_lt hhead,
        getD_set_at st.buffer st.head v default (by rw [hlen]; exact hhead),
        List.getElem_append_right (by rw [List.length_drop, htolen])]
      have hz : st.capacity - 1 - (st.to_list.drop 1).length = 0 := by
        rw [List.length_drop, htolen]
        omega
      simp [hz]

theorem pushAll_invariant (α : Type) [Inhabited α] (c : Nat) (hc : 0 < c) (vs : List α) :
    ((RingBuffer.fresh α c).pushAll vs).capacity = c ∧
      ((RingBuffer.fresh α c).pushAll vs).buffer.length = c ∧
      ((RingBuffer.fresh α c).pushAll vs).head = vs.length % c ∧
      ((RingBuffer.fresh α c).pushAll vs).len = min vs.length c ∧
      ((RingBuffer.fresh α c).pushAll vs).to_list = vs.drop (vs.length - min vs.length c) := by
  induction vs using List.reverseRecOn with
  | nil =>
    refine ⟨rfl, by simp [RingBuffer.pushAll, RingBuffer.fresh], by simp [RingBuffer.pushAll,
      RingBuffer.fresh], by simp [RingBuffer.pushAll, RingBuffer.fresh], ?_⟩
    show RingBuffer.to_list (RingBuffer.fresh α c) = List.drop _ _
    unfold RingBuffer.to_list RingBuffer.fresh
    simp [hc]
  | append_singleton vs v ih =>
    obtain ⟨hcap, hblen, hhead, hl, htl⟩ := ih
    have hstep : (RingBuffer.fresh α c).pushAll (vs ++ [v]) =
        ((RingBuffer.fresh α c).pushAll vs).push v := by
      unfold RingBuffer.pushAll
      rw [List.foldl_append]
      rfl
    rw [hstep]
    set st := (RingBuffer.fresh α c).pushAll vs with hst
    set k := vs.length with hk
    have hLen : (vs ++ [v]).length = k + 1 := by simp
    have hpcap : (st.push v).capacity = st.capacity := rfl
    have hpblen : (st.push v).buffer.length = st.buffer.length := by
      show (st.buffer.set st.head v).length = _
      rw [List.length_set]
    have hphead : (st.push v).head = (st.head + 1) % st.capacity := rfl
    have hplen' : (st.push v).len = if st.len < st.capacity then st.len + 1 else st.len := rfl
    refine ⟨by rw [hpcap, hcap], by rw [hpblen, hblen], ?_, ?_, ?_⟩
    · rw [hphead, hhead, hcap, Nat.mod_add_mod, hLen]
    · rw [hplen', hl, hcap, hLen]
      split <;> omega
    · rw [hLen]
      rcases Nat.lt_or_ge k c with hkc | hkc
      · have hmin : min k c = k := Nat.min_eq_left (by omega)
        have hnotfull : st.len < st.capacity := by
          rw [hl, hcap, hmin]
          exact hkc
        have hheadlen : st.head = st.len := by
          rw [hhead, hl, hmin, Nat.mod_eq_of_lt hkc]
        rw [push_to_list_notfull st v (by rw [hblen, hcap]) hnotfull hheadlen, htl, hmin]
        have hmin2 : min (k + 1) c = k + 1 := Nat.min_eq_left (by omega)
        rw [hmin2, Nat.sub_self, Nat.sub_self, List.drop_zero, List.drop_zero]
      · have hmin : min k c = c := Nat.min_eq_right (by omega)
        have hfull : st.len = st.capacity := by rw [hl, hcap, hmin]
        have hheadlt : st.head < st.capacity := by
          rw [hhead, hcap]
          exact Nat.mod_lt _ hc
        rw [push_to_list_full st v (by rw [hcap]; exact hc) (by rw [hblen, hcap])
          hfull hheadlt, htl, hmin]
        have hmin2 : min (k + 1) c = c := Nat.min_eq_right (by omega)
        rw [hmin2, List.drop_drop, List.drop_append_of_le_length (by omega)]
        have hidx : k - c + 1 = k + 1 - c := by omega
        rw [hidx]

/-- C2: pushing k values into a fresh buffer of capacity c > 0 leaves exactly
the last min(k, c) values, in push order, as the toList window. -/
theorem ring_buffer_window (α : Type) [Inhabited α] (c : Nat) (hc : 0 < c) (vs : List α) :
    ((RingBuffer.fresh α c).pushAll vs).to_list =
        vs.drop (vs.length - min vs.length c) ∧
      ((RingBuffer.fresh α c).pushAll vs).to_list.length = min vs.length c := by
  obtain ⟨-, -, -, -, htl⟩ := pushAll_invariant α c hc vs
  refine ⟨htl, ?_⟩
  rw [htl, List.length_drop]
  omega

/-- Witness for C2: capacity 2, pushes [10, 20, 30] over Int. -/
theorem ring_buffer_window_witness :
    0 < 2 ∧
      (((RingBuffer.fresh Int 2).pushAll [10, 20, 30]).to_list =
          ([10, 20, 30] : List Int).drop
            (([10, 20, 30] : List Int).length - min ([10, 20, 30] : List Int).length 2) ∧
        ((RingBuffer.fresh Int 2).pushAll [10, 20, 30]).to_list.length =
          min ([10, 20, 30] : List Int).length 2) :=
  ⟨by decide, ring_buffer_window Int 2 (by decide) [10, 20, 30]⟩

/-! ### Matrix multiplication: validation and the 2x2 identity -/

/-- C5: multiply fails with the InvalidArgument error exactly when one of the
two dimension checks fails; on failure the result is an error value carrying
no product data, so no partial computation is observable. -/
theorem matrix_multiply_error_iff (a b : List ℚ) (rows_a cols_a cols_b : Nat) :
    (∃ e, matrix_multiply a b rows_a cols_a cols_b = Except.error e) ↔
      (a.length ≠ rows_a * cols_a ∨ b.length ≠ cols_a * cols_b) := by
  unfold matrix_multiply
  by_cases ha : a.length = rows_a * cols_a
  · by_cases hb : b.length = cols_a * cols_b
    · simp [ha, hb]
    · simp [ha, hb]
  · simp [ha]

/-- C6: multiplying the 2x2 identity matrix by any 2x2 matrix B returns B
unchanged. -/
theorem matrix_multiply_identity (b0 b1 b2 b3 : ℚ) :
    matrix_multiply [1, 0, 0, 1] [b0, b1, b2, b3] 2 2 2 = Except.ok [b0, b1, b2, b3] := by
  unfold matrix_multiply
  norm_num [List.range_succ, List.getD_eq_getElem?_getD]
  rfl

/-! ### Slugify: no leading, trailing, or doubled dash -/

theorem lower_ne_dash (c : Nat) (h : is_ascii_alphanumeric c = true) :
    to_ascii_lowercase c ≠ 45 := by
  unfold is_ascii_alphanumeric at h
  unfold to_ascii_lowercase
  rw [decide_eq_true_eq] at h
  split <;> omega

theorem slug_fold_invariant (text : List Nat) :
    ∀ (s : List Nat) (b : Bool),
      s.head? ≠ some 45 →
      s.Chain' (fun x y => ¬(x = 45 ∧ y = 45)) →
      (b = false → s ≠ [] ∧ s.getLast? ≠ some 45) →
      (b = true → s = [] ∨ s.getLast? = some 45) →
      ((text.foldl slug_step (s, b)).1.head? ≠ some 45 ∧
        (text.foldl slug_step (s, b)).1.Chain' (fun x y => ¬(x = 45 ∧ y = 45)) ∧
        ((text.foldl slug_step (s, b)).2 = false →
          (text.foldl slug_step (s, b)).1 ≠ [] ∧
            (text.foldl slug_step (s, b)).1.getLast? ≠ some 45) ∧
        ((text.foldl slug_step (s, b)).2 = true →
          (text.foldl slug_step (s, b)).1 = [] ∨
            (text.foldl slug_step (s, b)).1.getLast? = some 45)) := by
  induction text with
  | nil => exact fun s b h1 h2 h3 h4 => ⟨h1, h2, h3, h4⟩
  | cons c text ih =>
    intro s b h1 h2 h3 h4
    rw [List.foldl_cons]
    by_cases hal : is_ascii_alphanumeric c = true
    · have hstep : slug_step (s, b) c = (s ++ [to_ascii_lowercase c], false) := by
        unfold slug_step
        rw [if_pos hal]
      rw [hstep]
      apply ih
      · cases s with
        | nil =>
          simp only [List.nil_append, List.head?_cons]
          intro hcon
          exact lower_ne_dash c hal (Option.some.inj hcon)
        | cons a s => simpa using h1
      · rw [List.chain'_append]
        refine ⟨h2, List.chain'_singleton _, ?_⟩
        intro x hx y hy
        have hy' : y = to_ascii_lowercase c := by
          simp only [List.head?_cons, Option.mem_def, Option.some.injEq] at hy
          omega
        rintro ⟨-, hy45⟩
        exact lower_ne_dash c hal (hy' ▸ hy45)
      · intro _
        refine ⟨by simp, ?_⟩
        rw [List.getLast?_concat]
        intro hcon
        exact lower_ne_dash c hal (Option.some.inj hcon)
      · intro hcon
        exact absurd hcon (by simp)
    · by_cases hb : b = false
      · have hstep : slug_step (s, b) c = (s ++ [45], true) := by
          unfold slug_step
          rw [if_neg hal, if_pos hb]
        rw [hstep]
        obtain ⟨hne, hlast⟩ := h3 hb
        apply ih
        · cases s with
          | nil => exact absurd rfl hne
          | cons a s => simpa using h1
        · rw [List.chain'_append]
          refine ⟨h2, List.chain'_singleton _, ?_⟩
          intro x hx y hy
          rintro ⟨hx45, -⟩
          rw [Option.mem_def] at hx
          subst hx45
          exact hlast hx
        · intro hcon
          exact absurd hcon (by simp)
        · intro _
          right
          exact List.getLast?_concat _
      · have hbt : b = true := by
          cases b
          · exact absurd rfl hb
          · rfl
        have hstep : slug_step (s, b) c = (s, b) := by
          unfold slug_step
          rw [if_neg hal, if_neg (by rw [hbt]; simp)]
        rw [hstep]
        exact ih s b h1 h2 h3 h4

/-- C9: slugify output never starts with a dash, never ends with a dash, and
never holds two adjacent dashes; slugify("Hello, World!") is "hello-world"
and slugify("   ") is the empty string (code point 45 is the dash). -/
theorem slugify_props (text : List Nat) :
    (slugify text).head? ≠ some 45 ∧
      (slugify text).getLast? ≠ some 45 ∧
      (slugify text).Chain' (fun x y => ¬(x = 45 ∧ y = 45)) ∧
      slugify ("Hello, World!".data.map Char.toNat) = "hello-world".data.map Char.toNat ∧
      slugify ("   ".data.map Char.toNat) = [] := by
  obtain ⟨h1, h2, h3, h4⟩ := slug_fold_invariant text [] true (by simp) List.chain'_nil
    (by simp) (fun _ => Or.inl rfl)
  have hslug : slugify text =
      if (text.foldl slug_step ([], true)).1.getLast? = some 45 then
        (text.foldl slug_step ([], true)).1.dropLast
      else (text.foldl slug_step ([], true)).1 := rfl
  refine ⟨?_, ?_, ?_, by decide, by decide⟩
  all_goals rw [hslug]
  · split
    case isTrue hl =>
      cases hr : (text.foldl slug_step ([], true)).1 with
      | nil => simp
      | cons a s =>
        cases s with
        | nil => simp
        | cons a2 s2 =>
          show (a :: (a2 :: s2).dropLast).head? ≠ some 45
          rw [hr] at h1
          simpa using h1
    case isFalse hl => exact h1
  · split
    case isTrue hl =>
      have hne : (text.foldl slug_step ([], true)).1 ≠ [] := by
        intro hcon
        rw [hcon] at hl
        cases hl
      have hdecomp := List.dropLast_append_getLast hne
      intro hcon
      have hcross := (List.chain'_append.1 (by rw [hdecomp]; exact h2)).2.2
      have hlast45 : (text.foldl slug_step ([], true)).1.getLast hne = 45 := by
        have h5 := List.getLast?_eq_getLast _ hne
        rw [hl] at h5
        exact (Option.some.inj h5).symm
      exact hcross 45 hcon ((text.foldl slug_step ([], true)).1.getLast hne) rfl
        ⟨rfl, hlast45⟩
    case isFalse hl => exact hl
  · split
    case isTrue hl =>
      have hne : (text.foldl slug_step ([], true)).1 ≠ [] := by
        intro hcon
        rw [hcon] at hl
        cases hl
      have hdecomp := List.dropLast_append_getLast hne
      exact (List.chain'_append.1 (by rw [hdecomp]; exact h2)).1
    case isFalse hl => exact h2

/-! ### Email extraction: the documented example -/

/-- C10: on "contact a.b@example.com or foo@bar and x@y." the scanner returns
exactly the two candidates a.b@example.com and x@y; foo@bar is rejected for
lacking a domain dot, and the trailing dot after x@y is trimmed. -/
theorem extract_emails_example :
    extract_emails ("contact a.b@example.com or foo@bar and x@y.".data.map Char.toNat) =
      ["a.b@example.com".data.map Char.toNat, "x@y".data.map Char.toNat] := by
  decide

end RustyPy
